import Mathlib

/-!
Verification of the popgene-pipelines scripts.

Each namespace embeds one Python script of the repository as executable Lean
definitions (pandas tables become lists of records, files become lists of
rows, exceptions become Except values), and proves the stated properties of
those definitions.
-/

set_option maxHeartbeats 1000000

namespace MaskAncestry

/-! Embedding of masking-vcf-local-ancestry/scripts/mask_ancestry.py.

A row of the gnomix MSP table: chromosome, interval start, interval end, and
the per-haplotype-column ancestry codes (column name "SAMPLE.0" / "SAMPLE.1"
mapping to the ancestry value), modelled as an association list.  The script
compares the chromosome column and the ancestry cells through Python str, so
chromosomes are kept as strings here and cells are converted with toString
at the comparison site, as the script does. -/
structure MspRow where
  chm : String
  spos : Int
  epos : Int
  cols : List (String × Int)
deriving DecidableEq, Inhabited

/-- A cyvcf2 genotype entry for one sample: the two haplotype alleles and the
phased flag.  Missing alleles are encoded as -1. -/
structure Genotype where
  a0 : Int
  a1 : Int
  phased : Bool
deriving DecidableEq, Inhabited

/-- A VCF record: chromosome, position, the per-sample genotypes, and a field
standing for the rest of the record (ID, REF, ALT, QUAL, FILTER, INFO), which
the script never modifies. -/
structure Variant where
  chrom : String
  pos : Int
  genotypes : List Genotype
  other : String
deriving DecidableEq, Inhabited

/-- The two pandas filters of retrieve_lai_at: rows whose interval contains
the position, then rows whose chromosome (through str) equals the variant
chromosome. -/
def lai_matches (pos : Int) (chrom : String) (lai_data : List MspRow) : List MspRow :=
  (lai_data.filter (fun r => decide (r.spos ≤ pos) && decide (pos ≤ r.epos))).filter
    (fun r => r.chm == chrom)

/-- retrieve_lai_at: the unique interval row covering the position, a
ValueError (modelled as Except.error) when there are zero or several. -/
def retrieve_lai_at (pos : Int) (chrom : String) (lai_data : List MspRow) :
    Except String MspRow :=
  match lai_matches pos chrom lai_data with
  | [] => .error ("Position " ++ toString pos ++ " not found in local ancestry data.")
  | [r] => .ok r
  | _ :: _ :: _ =>
      .error ("Position " ++ toString pos ++ " is in multiple ranges in the local ancestry data.")

/-- sample_ancestry_at: the ancestry codes of the two haplotype columns
SAMPLE.0 and SAMPLE.1 of the (single-row) interval table, through str.
The script raises KeyError on a column absent from the MSP header; that
malformed-header case is out of scope and the lookup defaults to 0 here. -/
def sample_ancestry_at (lai_pos : MspRow) (sample_name : String) : String × String :=
  (toString ((lai_pos.cols.lookup (sample_name ++ ".0")).getD 0),
   toString ((lai_pos.cols.lookup (sample_name ++ ".1")).getD 0))

/-- The genotype rewrite of the main loop: haplotype 0 is set to missing when
its ancestry differs from the requested ANC code, likewise haplotype 1. -/
def mask_genotype (anc : String) (h0 h1 : String) (g : Genotype) : Genotype :=
  { g with a0 := if h0 ≠ anc then -1 else g.a0,
           a1 := if h1 ≠ anc then -1 else g.a1 }

/-- The per-variant body of the main loop once the interval row is known:
every sample genotype is rewritten from that sample's two haplotype
ancestries.  variant.genotypes is modelled as a mutable field of the record,
which is the script's intent for the in-place updates. -/
def mask_core (anc : String) (samples : List String) (r : MspRow) (v : Variant) : Variant :=
  let gts := (v.genotypes.zip samples).map
    (fun gs => mask_genotype anc (sample_ancestry_at r gs.2).1 (sample_ancestry_at r gs.2).2 gs.1)
  { v with genotypes := gts }

/-- One iteration of the main loop: a ValueError from retrieve_lai_at is
caught, logged and the variant is skipped (none); otherwise the rewritten
record is written (some). -/
def process_variant (anc : String) (lai_data : List MspRow) (samples : List String)
    (v : Variant) : Option Variant :=
  match retrieve_lai_at v.pos v.chrom lai_data with
  | .error _ => none
  | .ok r => some (mask_core anc samples r v)

/-- The whole main loop: one pass over the VCF records, writing the processed
records in order and dropping the skipped ones. -/
def mask_ancestry (anc : String) (lai_data : List MspRow) (samples : List String)
    (variants : List Variant) : List Variant :=
  variants.filterMap (process_variant anc lai_data samples)

example :
    mask_ancestry "1" [⟨"22", 10, 20, [("s.0", 1), ("s.1", 2)]⟩] ["s"]
      [⟨"22", 15, [⟨0, 1, true⟩], "x"⟩, ⟨"22", 99, [⟨0, 1, true⟩], "y"⟩] =
      [⟨"22", 15, [⟨0, -1, true⟩], "x"⟩] := by decide

theorem zip_get?_some {α β : Type} : ∀ (l : List α) (l' : List β) (i : Nat) (a : α) (b : β),
    l.get? i = some a → l'.get? i = some b → (l.zip l').get? i = some (a, b)
  | [], _, _, _, _, h, _ => by simp at h
  | _ :: _, [], _, _, _, _, h => by simp at h
  | x :: xs, y :: ys, 0, a, b, ha, hb => by
      simp at ha hb
      simp [ha, hb]
  | x :: xs, y :: ys, i + 1, a, b, ha, hb => by
      simpa using zip_get?_some xs ys i a b (by simpa using ha) (by simpa using hb)

/-- C1: for a variant whose position lies in exactly one local-ancestry
interval row r, the record that main writes has, for each sample, the
haplotype-0 allele set to -1 exactly when that sample's haplotype-0 ancestry
at the position differs from ANC (and otherwise keeps the input allele), and
likewise for haplotype 1. -/
theorem mask_haplotypes_correct (anc : String) (lai : List MspRow) (samples : List String)
    (v : Variant) (r : MspRow) (i : Nat) (g : Genotype) (name : String)
    (hr : lai_matches v.pos v.chrom lai = [r])
    (hg : v.genotypes.get? i = some g) (hn : samples.get? i = some name) :
    ∃ v', process_variant anc lai samples v = some v' ∧
      v'.genotypes.get? i = some
        ⟨if (sample_ancestry_at r name).1 ≠ anc then -1 else g.a0,
         if (sample_ancestry_at r name).2 ≠ anc then -1 else g.a1,
         g.phased⟩ := by
  refine ⟨mask_core anc samples r v, ?_, ?_⟩
  · simp [process_variant, retrieve_lai_at, hr]
  · simp only [mask_core, List.get?_map, zip_get?_some v.genotypes samples i g name hg hn,
      Option.map_some]
    rfl

theorem mask_haplotypes_correct_witness :
    ∃ v', process_variant "1" [⟨"22", 10, 20, [("s.0", 1), ("s.1", 2)]⟩] ["s"]
        ⟨"22", 15, [⟨0, 1, true⟩], "x"⟩ = some v' ∧
      v'.genotypes.get? 0 = some
        ⟨if (sample_ancestry_at ⟨"22", 10, 20, [("s.0", 1), ("s.1", 2)]⟩ "s").1 ≠ "1" then -1
           else (0 : Int),
         if (sample_ancestry_at ⟨"22", 10, 20, [("s.0", 1), ("s.1", 2)]⟩ "s").2 ≠ "1" then -1
           else (1 : Int),
         true⟩ :=
  mask_haplotypes_correct "1" [⟨"22", 10, 20, [("s.0", 1), ("s.1", 2)]⟩] ["s"]
    ⟨"22", 15, [⟨0, 1, true⟩], "x"⟩ ⟨"22", 10, 20, [("s.0", 1), ("s.1", 2)]⟩ 0 ⟨0, 1, true⟩ "s"
    (by decide) (by decide) (by decide)

/-- C2: for a variant whose position lies in zero or several interval rows,
retrieve_lai_at raises a ValueError, the main loop writes nothing for the
variant, and processing continues with the remaining variants. -/
theorem skip_unmatched_variant (anc : String) (lai : List MspRow) (samples : List String)
    (v : Variant) (h : (lai_matches v.pos v.chrom lai).length ≠ 1) :
    (∃ e, retrieve_lai_at v.pos v.chrom lai = .error e) ∧
    process_variant anc lai samples v = none ∧
    ∀ rest, mask_ancestry anc lai samples (v :: rest) = mask_ancestry anc lai samples rest := by
  have herr : ∃ e, retrieve_lai_at v.pos v.chrom lai = .error e := by
    rcases hm : lai_matches v.pos v.chrom lai with _ | ⟨a, _ | ⟨b, t⟩⟩
    · exact ⟨"Position " ++ toString v.pos ++ " not found in local ancestry data.",
        by simp [retrieve_lai_at, hm]⟩
    · rw [hm] at h
      simp at h
    · exact ⟨"Position " ++ toString v.pos ++ " is in multiple ranges in the local ancestry data.",
        by simp [retrieve_lai_at, hm]⟩
  obtain ⟨e, he⟩ := herr
  refine ⟨⟨e, he⟩, by simp [process_variant, he], ?_⟩
  intro rest
  simp [mask_ancestry, List.filterMap_cons, process_variant, he]

theorem skip_unmatched_variant_witness :
    (∃ e, retrieve_lai_at (99 : Int) "22" [⟨"22", 10, 20, [("s.0", 1)]⟩] = .error e) ∧
    process_variant "1" [⟨"22", 10, 20, [("s.0", 1)]⟩] ["s"] ⟨"22", 99, [⟨0, 1, true⟩], "y"⟩ =
      none ∧
    ∀ rest, mask_ancestry "1" [⟨"22", 10, 20, [("s.0", 1)]⟩] ["s"]
        (⟨"22", 99, [⟨0, 1, true⟩], "y"⟩ :: rest) =
      mask_ancestry "1" [⟨"22", 10, 20, [("s.0", 1)]⟩] ["s"] rest :=
  skip_unmatched_variant "1" [⟨"22", 10, 20, [("s.0", 1)]⟩] ["s"]
    ⟨"22", 99, [⟨0, 1, true⟩], "y"⟩ (by decide)

theorem process_variant_eq (anc : String) (lai : List MspRow) (samples : List String)
    (v : Variant) :
    process_variant anc lai samples v =
      if (lai_matches v.pos v.chrom lai).length = 1 then
        some (mask_core anc samples ((lai_matches v.pos v.chrom lai).headD default) v)
      else none := by
  rcases hm : lai_matches v.pos v.chrom lai with _ | ⟨a, _ | ⟨b, t⟩⟩ <;>
    simp [process_variant, retrieve_lai_at, hm]

theorem mask_ancestry_eq (anc : String) (lai : List MspRow) (samples : List String) :
    ∀ variants : List Variant,
    mask_ancestry anc lai samples variants =
      (variants.filter (fun v => (lai_matches v.pos v.chrom lai).length == 1)).map
        (fun v => mask_core anc samples ((lai_matches v.pos v.chrom lai).headD default) v)
  | [] => rfl
  | v :: vs => by
    have ih := mask_ancestry_eq anc lai samples vs
    by_cases hv : (lai_matches v.pos v.chrom lai).length = 1
    · simp only [mask_ancestry, List.filterMap_cons, process_variant_eq, hv, if_pos,
        List.filter_cons]
      simp only [mask_ancestry] at ih
      simp [hv, ih]
    · simp only [mask_ancestry, List.filterMap_cons, process_variant_eq, hv, if_neg,
        List.filter_cons]
      simp only [mask_ancestry] at ih
      simp [hv, ih]

/-- C3: the main loop is one pass over the input VCF: the output is exactly
the non-skipped variants, each written once, in input order (the
filter-then-map equation), and the rewrite of a written record only touches
the haplotype allele entries of the genotypes: chromosome, position and all
other fields are unchanged, the genotype list keeps its length, and each
genotype keeps its phased flag. -/
theorem single_pass_frame (anc : String) (lai : List MspRow) (samples : List String)
    (variants : List Variant) :
    mask_ancestry anc lai samples variants =
      (variants.filter (fun v => (lai_matches v.pos v.chrom lai).length == 1)).map
        (fun v => mask_core anc samples ((lai_matches v.pos v.chrom lai).headD default) v) ∧
    (∀ v : Variant, ∀ r : MspRow,
      (mask_core anc samples r v).chrom = v.chrom ∧
      (mask_core anc samples r v).pos = v.pos ∧
      (mask_core anc samples r v).other = v.other) ∧
    (∀ v : Variant, ∀ r : MspRow, v.genotypes.length ≤ samples.length →
      (mask_core anc samples r v).genotypes.length = v.genotypes.length ∧
      ∀ i g, v.genotypes.get? i = some g →
        ∃ g', (mask_core anc samples r v).genotypes.get? i = some g' ∧
          g'.phased = g.phased) := by
  refine ⟨mask_ancestry_eq anc lai samples variants, fun v r => ⟨rfl, rfl, rfl⟩, ?_⟩
  intro v r hlen
  constructor
  · simp [mask_core]
    omega
  · intro i g hg
    have hi : i < v.genotypes.length := by
      rcases List.get?_eq_some.mp hg with ⟨hi, _⟩
      exact hi
    have hn : ∃ name, samples.get? i = some name := by
      rcases List.get?_eq_some.mp (List.get?_eq_get (lt_of_lt_of_le hi hlen)) with ⟨_, _⟩
      exact ⟨samples.get ⟨i, lt_of_lt_of_le hi hlen⟩, List.get?_eq_get (lt_of_lt_of_le hi hlen)⟩
    obtain ⟨name, hn⟩ := hn
    refine ⟨mask_genotype anc (sample_ancestry_at r name).1 (sample_ancestry_at r name).2 g,
      ?_, rfl⟩
    simp only [mask_core, List.get?_map, zip_get?_some v.genotypes samples i g name hg hn]
    rfl

theorem single_pass_frame_witness :
    ∃ g', (mask_core "1" ["s"] ⟨"22", 10, 20, [("s.0", 1), ("s.1", 2)]⟩
        ⟨"22", 15, [⟨0, 1, true⟩], "x"⟩).genotypes.get? 0 = some g' ∧ g'.phased = true :=
  ((single_pass_frame "1" [⟨"22", 10, 20, [("s.0", 1), ("s.1", 2)]⟩] ["s"] []).2.2
    ⟨"22", 15, [⟨0, 1, true⟩], "x"⟩ ⟨"22", 10, 20, [("s.0", 1), ("s.1", 2)]⟩ (by decide)).2
    0 ⟨0, 1, true⟩ (by decide)

end MaskAncestry

namespace PipelineUtil

/-- Keep the first occurrence of each element: pandas drop_duplicates, and
also the set of distinct values of a column in first-appearance order. -/
def dropDupFirstAux {α : Type} [DecidableEq α] (seen : List α) : List α → List α
  | [] => []
  | x :: xs => if x ∈ seen then dropDupFirstAux seen xs else x :: dropDupFirstAux (x :: seen) xs

def dropDupFirst {α : Type} [DecidableEq α] (l : List α) : List α :=
  dropDupFirstAux [] l

theorem foldl_min_le_init : ∀ (l : List Int) (a : Int), l.foldl min a ≤ a
  | [], a => le_refl a
  | x :: xs, a => le_trans (foldl_min_le_init xs (min a x)) (min_le_left a x)

theorem foldl_min_le_mem : ∀ (l : List Int) (a x : Int), x ∈ l → l.foldl min a ≤ x
  | y :: ys, a, x, h => by
    rcases List.mem_cons.mp h with h1 | h2
    · subst h1
      exact le_trans (foldl_min_le_init ys (min a x)) (min_le_right a x)
    · exact foldl_min_le_mem ys (min a y) x h2

theorem foldl_min_mem : ∀ (l : List Int) (a : Int), l.foldl min a = a ∨ l.foldl min a ∈ l
  | [], _ => Or.inl rfl
  | y :: ys, a => by
    rcases foldl_min_mem ys (min a y) with h | h
    · rcases min_choice a y with hc | hc
      · exact Or.inl (by rw [List.foldl_cons, h, hc])
      · refine Or.inr ?_
        rw [List.foldl_cons, h, hc]
        exact List.mem_cons_self y ys
    · exact Or.inr (List.mem_cons_of_mem y h)

theorem le_foldl_max_init : ∀ (l : List Int) (a : Int), a ≤ l.foldl max a
  | [], a => le_refl a
  | x :: xs, a => le_trans (le_max_left a x) (le_foldl_max_init xs (max a x))

theorem mem_le_foldl_max : ∀ (l : List Int) (a x : Int), x ∈ l → x ≤ l.foldl max a
  | y :: ys, a, x, h => by
    rcases List.mem_cons.mp h with h1 | h2
    · subst h1
      exact le_trans (le_max_right a x) (le_foldl_max_init ys (max a x))
    · exact mem_le_foldl_max ys (max a y) x h2

theorem foldl_max_mem : ∀ (l : List Int) (a : Int), l.foldl max a = a ∨ l.foldl max a ∈ l
  | [], _ => Or.inl rfl
  | y :: ys, a => by
    rcases foldl_max_mem ys (max a y) with h | h
    · rcases max_choice a y with hc | hc
      · exact Or.inl (by rw [List.foldl_cons, h, hc])
      · refine Or.inr ?_
        rw [List.foldl_cons, h, hc]
        exact List.mem_cons_self y ys
    · exact Or.inr (List.mem_cons_of_mem y h)

theorem mem_dropDupFirstAux {α : Type} [DecidableEq α] (x : α) :
    ∀ (l seen : List α), x ∈ dropDupFirstAux seen l ↔ x ∈ l ∧ x ∉ seen
  | [], seen => by simp [dropDupFirstAux]
  | y :: ys, seen => by
    by_cases h : y ∈ seen
    · rw [dropDupFirstAux, if_pos h, mem_dropDupFirstAux x ys seen]
      constructor
      · rintro ⟨h1, h2⟩
        exact ⟨List.mem_cons_of_mem _ h1, h2⟩
      · rintro ⟨h1, h2⟩
        rcases List.mem_cons.mp h1 with rfl | h1
        · exact absurd h h2
        · exact ⟨h1, h2⟩
    · rw [dropDupFirstAux, if_neg h]
      by_cases hxy : x = y
      · subst hxy
        simp [h]
      · simp only [List.mem_cons, hxy, false_or]
        rw [mem_dropDupFirstAux x ys (y :: seen)]
        simp [hxy]

theorem mem_dropDupFirst {α : Type} [DecidableEq α] (x : α) (l : List α) :
    x ∈ dropDupFirst l ↔ x ∈ l := by
  rw [dropDupFirst, mem_dropDupFirstAux]
  simp

theorem nodup_dropDupFirstAux {α : Type} [DecidableEq α] :
    ∀ (l seen : List α), (dropDupFirstAux seen l).Nodup
  | [], _ => List.nodup_nil
  | y :: ys, seen => by
    rw [dropDupFirstAux]
    split
    · exact nodup_dropDupFirstAux ys seen
    · refine List.nodup_cons.mpr ⟨?_, nodup_dropDupFirstAux ys (y :: seen)⟩
      intro hy
      exact ((mem_dropDupFirstAux y ys (y :: seen)).mp hy).2 (List.mem_cons_self y seen)

theorem nodup_dropDupFirst {α : Type} [DecidableEq α] (l : List α) : (dropDupFirst l).Nodup :=
  nodup_dropDupFirstAux l []

theorem toFinset_dropDupFirst {α : Type} [DecidableEq α] (l : List α) :
    (dropDupFirst l).toFinset = l.toFinset := by
  ext x
  simp [List.mem_toFinset, mem_dropDupFirst]

theorem sum_fiber_toFinset {α K : Type} [DecidableEq K] (key : α → K) (w : α → ℚ) :
    ∀ l : List α,
      ∑ k ∈ (l.map key).toFinset, ((l.filter (fun x => key x == k)).map w).sum =
        (l.map w).sum
  | [] => by simp
  | x :: t => by
    have ih := sum_fiber_toFinset key w t
    have hbody : ∀ k, ((List.filter (fun a => key a == k) (x :: t)).map w).sum =
        (if key x = k then w x else 0) + ((t.filter (fun a => key a == k)).map w).sum := by
      intro k
      rw [List.filter_cons]
      by_cases h : key x = k
      · simp [h]
      · simp [h]
    simp only [List.map_cons, List.toFinset_cons]
    rw [Finset.sum_congr rfl (fun k _ => hbody k), Finset.sum_add_distrib,
      Finset.sum_ite_eq (insert (key x) (t.map key).toFinset) (key x) (fun _ => w x),
      if_pos (Finset.mem_insert_self _ _), List.sum_cons]
    by_cases hmem : key x ∈ (t.map key).toFinset
    · rw [Finset.insert_eq_self.mpr hmem, ih]
    · rw [Finset.sum_insert hmem]
      have hnil : t.filter (fun a => key a == key x) = [] := by
        apply List.filter_eq_nil.mpr
        intro a ha
        simp only [beq_iff_eq]
        intro hEq
        apply hmem
        rw [List.mem_toFinset]
        exact hEq ▸ List.mem_map_of_mem key ha
      rw [hnil]
      simp [ih]

theorem sum_map_div (c : ℚ) {K : Type} (f : K → ℚ) :
    ∀ l : List K, (l.map (fun k => f k / c)).sum = (l.map f).sum / c
  | [] => by simp
  | k :: t => by
    simp only [List.map_cons, List.sum_cons, sum_map_div c f t]
    rw [add_div]

theorem sum_fiber_dropDupFirst {α K : Type} [DecidableEq K] (key : α → K) (w : α → ℚ)
    (l : List α) :
    ((dropDupFirst (l.map key)).map
      (fun k => ((l.filter (fun x => key x == k)).map w).sum)).sum = (l.map w).sum := by
  rw [← List.sum_toFinset _ (nodup_dropDupFirst (l.map key)), toFinset_dropDupFirst,
    sum_fiber_toFinset key w l]

theorem lookup_key_map {β : Type} (f : String → β) :
    ∀ (ks : List String), ∀ s ∈ ks, (ks.map (fun k => (k, f k))).lookup s = some (f s)
  | k :: ks, s, hs => by
    by_cases h : s = k
    · subst h
      simp [List.lookup]
    · rcases List.mem_cons.mp hs with h' | h'
      · exact absurd h' h
      · have hbeq : (s == k) = false := beq_eq_false_iff_ne.mpr h
        simp only [List.map_cons, List.lookup, hbeq]
        exact lookup_key_map f ks s h'

theorem filter_key_map_eq_single {β : Type} (f : String → β) :
    ∀ (ks : List String), ks.Nodup → ∀ s ∈ ks,
      (ks.map (fun k => (k, f k))).filter (fun p => p.1 == s) = [(s, f s)]
  | k :: ks, hnd, s, hs => by
    simp only [List.map_cons, List.filter_cons]
    rcases List.mem_cons.mp hs with rfl | hs'
    · rw [if_pos (by simp)]
      have hnil : (ks.map (fun k => (k, f k))).filter (fun p => p.1 == s) = [] := by
        apply List.filter_eq_nil.mpr
        intro p hp
        rcases List.mem_map.mp hp with ⟨k'', hk'', he⟩
        subst he
        simp only [beq_iff_eq]
        intro hks
        have hks' : k'' = s := hks
        exact (List.nodup_cons.mp hnd).1 (hks' ▸ hk'')
      rw [hnil]
    · have hne : k ≠ s := fun h => (List.nodup_cons.mp hnd).1 (h ▸ hs')
      rw [if_neg (by simpa using hne)]
      exact filter_key_map_eq_single f ks (List.nodup_cons.mp hnd).2 s hs'

end PipelineUtil

namespace MaskAncestry

/-- get_vcf_range: the smallest and largest POS of the VCF (numpy min and max
over the POS column, a ValueError on an empty column) and its unique
chromosome; a ValueError when the set of CHROM values has more than one
element (or none). -/
def get_vcf_range (vcf : List (String × Int)) : Except String (Int × Int × String) :=
  match vcf with
  | [] => .error "zero-size array to reduction operation minimum which has no identity"
  | v :: vs =>
    let minp := (vs.map Prod.snd).foldl min v.2
    let maxp := (vs.map Prod.snd).foldl max v.2
    match PipelineUtil.dropDupFirst ((v :: vs).map Prod.fst) with
    | [c] => .ok (minp, maxp, c)
    | _ => .error "The VCF file must contain data for exactly one chromosome."

/-- load_and_restrict_msp: after get_vcf_range, a ValueError when the MSP
chromosome column does not have exactly one distinct value or when it differs
from the VCF chromosome; otherwise the rows whose interval overlaps the VCF
position range, first occurrences kept (drop_duplicates). -/
def load_and_restrict_msp (msp : List MspRow) (vcf : List (String × Int)) :
    Except String (List MspRow) :=
  match get_vcf_range vcf with
  | .error e => .error e
  | .ok (minp, maxp, vchrom) =>
    match PipelineUtil.dropDupFirst (msp.map MspRow.chm) with
    | [mchrom] =>
      if vchrom ≠ mchrom then
        .error ("Chromosome mismatch: VCF has " ++ vchrom ++ ", MSP has " ++ mchrom ++ ".")
      else
        .ok (PipelineUtil.dropDupFirst
          (msp.filter (fun r => decide (r.spos ≤ maxp) && decide (minp ≤ r.epos))))
    | _ => .error "The MSP file must contain data for exactly one chromosome."

/-- C10 counterexample: a one-variant, one-chromosome VCF together with an
empty MSP table.  The MSP table does not contain more than one distinct
chromosome and no chromosome mismatch exists, yet the function raises a
ValueError instead of returning the restricted (empty) ancestry table the
claim promises for this case. -/
theorem empty_msp_counterexample :
    (PipelineUtil.dropDupFirst (([] : List MspRow).map MspRow.chm)).length ≤ 1 ∧
    PipelineUtil.dropDupFirst ([("1", (5 : Int))].map Prod.fst) = ["1"] ∧
    load_and_restrict_msp [] [("1", (5 : Int))] ≠
      .ok (PipelineUtil.dropDupFirst (([] : List MspRow).filter
        (fun r => decide (r.spos ≤ (5 : Int)) && decide ((5 : Int) ≤ r.epos)))) ∧
    ∃ e, load_and_restrict_msp [] [("1", (5 : Int))] = .error e := by
  refine ⟨by decide, by decide, ?_, ⟨_, rfl⟩⟩
  intro h
  simp [load_and_restrict_msp, get_vcf_range, PipelineUtil.dropDupFirst,
    PipelineUtil.dropDupFirstAux] at h

/-- C10 (amended): the function raises a ValueError when the VCF chromosome
column does not have exactly one distinct value (in particular when it has
more than one, or when the VCF is empty so that the position column is empty
too), when the MSP chromosome column does not have exactly one distinct
value (more than one, or an empty MSP table), or when the two unique
chromosomes differ as strings; when the VCF range is available and the MSP
table has exactly one distinct chromosome equal to the VCF one, it returns
the MSP rows whose interval overlaps the closed range from the smallest to
the largest VCF position, with duplicate rows dropped (first kept).  The
smallest and largest positions are characterised as genuine min and max of
the POS column. -/
theorem load_and_restrict_msp_spec (msp : List MspRow) (vcf : List (String × Int)) :
    ((PipelineUtil.dropDupFirst (vcf.map Prod.fst)).length ≠ 1 →
       ∃ e, load_and_restrict_msp msp vcf = .error e) ∧
    ((PipelineUtil.dropDupFirst (msp.map MspRow.chm)).length ≠ 1 →
       ∃ e, load_and_restrict_msp msp vcf = .error e) ∧
    (∀ minp maxp c, get_vcf_range vcf = .ok (minp, maxp, c) →
       ((∀ p ∈ vcf.map Prod.snd, minp ≤ p ∧ p ≤ maxp) ∧
         minp ∈ vcf.map Prod.snd ∧ maxp ∈ vcf.map Prod.snd) ∧
       ∀ m, PipelineUtil.dropDupFirst (msp.map MspRow.chm) = [m] →
         (c ≠ m → ∃ e, load_and_restrict_msp msp vcf = .error e) ∧
         (c = m → load_and_restrict_msp msp vcf = .ok (PipelineUtil.dropDupFirst
           (msp.filter (fun r => decide (r.spos ≤ maxp) && decide (minp ≤ r.epos)))))) := by
  refine ⟨?_, ?_, ?_⟩
  · intro hv
    rcases vcf with _ | ⟨v, vs⟩
    · simp only [load_and_restrict_msp, get_vcf_range]
      exact ⟨_, rfl⟩
    · simp only [List.map_cons] at hv
      rcases hd : PipelineUtil.dropDupFirst (v.1 :: vs.map Prod.fst) with _ | ⟨c, _ | ⟨c', t⟩⟩
      · simp only [load_and_restrict_msp, get_vcf_range, List.map_cons, hd]
        exact ⟨_, rfl⟩
      · rw [hd] at hv
        simp at hv
      · simp only [load_and_restrict_msp, get_vcf_range, List.map_cons, hd]
        exact ⟨_, rfl⟩
  · intro hm
    rcases hg : get_vcf_range vcf with e | ⟨minp, maxp, c⟩
    · simp only [load_and_restrict_msp, hg]
      exact ⟨e, rfl⟩
    · rcases hd : PipelineUtil.dropDupFirst (msp.map MspRow.chm) with _ | ⟨m, _ | ⟨m', t⟩⟩
      · simp only [load_and_restrict_msp, hg, hd]
        exact ⟨_, rfl⟩
      · rw [hd] at hm
        simp at hm
      · simp only [load_and_restrict_msp, hg, hd]
        exact ⟨_, rfl⟩
  · intro minp maxp c hg
    constructor
    · rcases vcf with _ | ⟨v, vs⟩
      · simp [get_vcf_range] at hg
      · simp only [get_vcf_range, List.map_cons] at hg
        rcases hd : PipelineUtil.dropDupFirst (v.1 :: vs.map Prod.fst) with _ | ⟨c0, _ | ⟨c', t⟩⟩ <;>
          rw [hd] at hg
        · simp at hg
        · simp only [Except.ok.injEq, Prod.mk.injEq] at hg
          obtain ⟨h1, h2, h3⟩ := hg
          subst h1; subst h2
          refine ⟨?_, ?_, ?_⟩
          · intro p hp
            simp only [List.map_cons] at hp
            rcases List.mem_cons.mp hp with h | h
            · exact ⟨h ▸ PipelineUtil.foldl_min_le_init _ _, h ▸ PipelineUtil.le_foldl_max_init _ _⟩
            · exact ⟨PipelineUtil.foldl_min_le_mem _ _ _ h, PipelineUtil.mem_le_foldl_max _ _ _ h⟩
          · simp only [List.map_cons]
            rcases PipelineUtil.foldl_min_mem (vs.map Prod.snd) v.2 with h | h
            · rw [h]
              exact List.mem_cons_self _ _
            · exact List.mem_cons_of_mem _ h
          · simp only [List.map_cons]
            rcases PipelineUtil.foldl_max_mem (vs.map Prod.snd) v.2 with h | h
            · rw [h]
              exact List.mem_cons_self _ _
            · exact List.mem_cons_of_mem _ h
        · simp at hg
    · intro m hd
      constructor
      · intro hne
        simp only [load_and_restrict_msp, hg, hd, if_pos hne]
        exact ⟨_, rfl⟩
      · intro heq
        subst heq
        simp [load_and_restrict_msp, hg, hd]

theorem load_and_restrict_msp_spec_witness :
    ∃ e, load_and_restrict_msp [⟨"22", 10, 20, []⟩] [("1", (5 : Int)), ("2", 6)] = .error e :=
  (load_and_restrict_msp_spec [⟨"22", 10, 20, []⟩] [("1", (5 : Int)), ("2", 6)]).1 (by decide)

end MaskAncestry

namespace VcfSplit

/-! Embedding of masking-vcf-local-ancestry/scripts/vcf_sipliter.py. -/

/-- The numpy array_split layout: n // k + 1 elements for the first n % k
chunks, n // k for the rest. -/
def splitSizes (n k : Nat) : List Nat :=
  (List.range k).map (fun i => n / k + if i < n % k then 1 else 0)

/-- Cut a list into consecutive chunks of the given sizes. -/
def takeDrop : List Nat → List Int → List (List Int)
  | [], _ => []
  | s :: ss, l => l.take s :: takeDrop ss (l.drop s)

/-- np.array_split(positions, k). -/
def array_split (l : List Int) (k : Nat) : List (List Int) :=
  takeDrop (splitSizes l.length k) l

/-- The region string of one chunk, chrom:first-last.  The defaults never
fire on the chunks produced under the length guard, which are nonempty. -/
def region_str (chrom : String) (ps : List Int) : String :=
  chrom ++ ":" ++ toString (ps.headD 0) ++ "-" ++ toString (ps.getLastD 0)

/-- split_positions: ValueError when n_split is not positive or when there
are fewer positions than splits, otherwise the region strings of the
array_split chunks. -/
def split_positions (positions : List Int) (n_split : Int) (chrom : String) :
    Except String (List String) :=
  if n_split ≤ 0 then .error "Number of splits must be greater than 0."
  else if (positions.length : Int) < n_split then
    .error "VCF file has fewer variants than requested splits."
  else .ok ((array_split positions n_split.toNat).map (region_str chrom))

theorem sum_range_ite (q r : Nat) : ∀ k : Nat,
    ((List.range k).map (fun i => q + if i < r then 1 else 0)).sum = k * q + min r k
  | 0 => by simp
  | k + 1 => by
    rw [List.range_succ, List.map_append, List.sum_append, sum_range_ite q r k]
    by_cases h : k < r <;> simp [h, Nat.succ_mul] <;> omega

theorem sum_splitSizes (n k : Nat) (hk : 0 < k) : (splitSizes n k).sum = n := by
  unfold splitSizes
  rw [sum_range_ite, min_eq_left (le_of_lt (Nat.mod_lt n hk))]
  exact Nat.div_add_mod n k

theorem takeDrop_length : ∀ (ss : List Nat) (l : List Int), (takeDrop ss l).length = ss.length
  | [], _ => rfl
  | s :: ss, l => by simp [takeDrop, takeDrop_length ss]

theorem takeDrop_join : ∀ (ss : List Nat) (l : List Int), (takeDrop ss l).flatten = l.take ss.sum
  | [], l => by simp [takeDrop]
  | s :: ss, l => by
    simp only [takeDrop, List.flatten_cons, List.sum_cons]
    rw [takeDrop_join ss (l.drop s), List.take_add]

theorem takeDrop_lengths : ∀ (ss : List Nat) (l : List Int), ss.sum ≤ l.length →
    (takeDrop ss l).map List.length = ss
  | [], _, _ => rfl
  | s :: ss, l, h => by
    simp only [List.sum_cons] at h
    simp only [takeDrop, List.map_cons]
    rw [List.length_take, min_eq_left (by omega), takeDrop_lengths ss (l.drop s)
      (by simp only [List.length_drop]; omega)]

theorem mem_splitSizes (n k s : Nat) (h : s ∈ splitSizes n k) : s = n / k ∨ s = n / k + 1 := by
  unfold splitSizes at h
  rcases List.mem_map.mp h with ⟨i, _, hi⟩
  by_cases hc : i < n % k
  · rw [if_pos hc] at hi
    exact Or.inr hi.symm
  · rw [if_neg hc] at hi
    simp only [Nat.add_zero] at hi
    exact Or.inl hi.symm

/-- C5: split_positions raises a ValueError when n_split is not positive or
when there are fewer positions than splits; otherwise it returns exactly
n_split region strings chrom:first-last over the array_split chunks, which
are a contiguous partition of the positions (their concatenation is the
input) into nonempty pieces whose sizes differ by at most one. -/
theorem split_positions_spec (positions : List Int) (n_split : Int) (chrom : String)
    (_hsorted : positions.Pairwise (fun a b => a ≤ b)) :
    (n_split ≤ 0 → ∃ e, split_positions positions n_split chrom = .error e) ∧
    (0 < n_split → (positions.length : Int) < n_split →
       ∃ e, split_positions positions n_split chrom = .error e) ∧
    (0 < n_split → n_split ≤ (positions.length : Int) →
       split_positions positions n_split chrom =
         .ok ((array_split positions n_split.toNat).map (region_str chrom)) ∧
       (array_split positions n_split.toNat).length = n_split.toNat ∧
       (array_split positions n_split.toNat).flatten = positions ∧
       (∀ p ∈ array_split positions n_split.toNat, p ≠ [] ∧
         (p.length = positions.length / n_split.toNat ∨
          p.length = positions.length / n_split.toNat + 1))) := by
  refine ⟨?_, ?_, ?_⟩
  · intro h
    simp only [split_positions, if_pos h]
    exact ⟨_, rfl⟩
  · intro h0 hlt
    simp only [split_positions, if_neg (not_le.mpr h0), if_pos hlt]
    exact ⟨_, rfl⟩
  · intro h0 hle
    have hk : 0 < n_split.toNat := by omega
    have hkn : n_split.toNat ≤ positions.length := by omega
    have hsum : (splitSizes positions.length n_split.toNat).sum = positions.length :=
      sum_splitSizes _ _ hk
    refine ⟨?_, ?_, ?_, ?_⟩
    · simp only [split_positions, if_neg (not_le.mpr h0), if_neg (not_lt.mpr hle)]
    · rw [array_split, takeDrop_length]
      simp [splitSizes]
    · rw [array_split, takeDrop_join, hsum, List.take_length]
    · intro p hp
      have hlen : p.length ∈ splitSizes positions.length n_split.toNat := by
        rw [← takeDrop_lengths (splitSizes positions.length n_split.toNat) positions
          (le_of_eq hsum)]
        exact List.mem_map_of_mem List.length hp
      have hq : 0 < positions.length / n_split.toNat := (Nat.one_le_div_iff hk).mpr hkn
      rcases mem_splitSizes _ _ _ hlen with h | h
      · refine ⟨?_, Or.inl h⟩
        intro hnil
        rw [hnil] at h
        simp only [List.length_nil] at h
        omega
      · refine ⟨?_, Or.inr h⟩
        intro hnil
        rw [hnil] at h
        simp at h

theorem split_positions_spec_witness :
    split_positions [(1 : Int), 2, 3] 2 "chr1" =
      .ok ((array_split [(1 : Int), 2, 3] (2 : Int).toNat).map (region_str "chr1")) :=
  ((split_positions_spec [(1 : Int), 2, 3] 2 "chr1" (by decide)).2.2 (by decide) (by decide)).1

end VcfSplit

namespace GlobalAncestry

/-! Embedding of local-ancestry/scripts/global_ancestry.py. -/

/-- A row of the concatenated BED data: sample name, ancestry label, segment
start and segment end. -/
structure BedRow where
  sample : String
  ancestry : String
  spos : Int
  epos : Int
deriving DecidableEq, Inhabited

/-- The weight column: the genomic segment length epos - spos, taken as the
rational number it is used as in the proportions. -/
def weight (r : BedRow) : ℚ := ((r.epos - r.spos : Int) : ℚ)

/-- groupby(["sample", "ancestry"]).weight.sum for one (sample, ancestry)
pair. -/
def ancestry_weight (rows : List BedRow) (s a : String) : ℚ :=
  ((rows.filter (fun r => r.sample == s && r.ancestry == a)).map weight).sum

/-- The per-sample total weight, the level-0 group sum. -/
def sample_total (rows : List BedRow) (s : String) : ℚ :=
  ((rows.filter (fun r => r.sample == s)).map weight).sum

/-- One entry of the proportions table. -/
def ancestry_proportion (rows : List BedRow) (s a : String) : ℚ :=
  ancestry_weight rows s a / sample_total rows s

/-- The ancestries occurring in a sample's segments: the non-missing columns
of that sample's row after the unstack. -/
def sample_ancestries (rows : List BedRow) (s : String) : List String :=
  PipelineUtil.dropDupFirst ((rows.filter (fun r => r.sample == s)).map BedRow.ancestry)

/-- compute_ancestry_proportions: one row per distinct sample, holding the
proportion entry for each ancestry occurring in that sample's segments
(absent ancestries are the NaN cells that main later fills with 0). -/
def compute_ancestry_proportions (rows : List BedRow) :
    List (String × List (String × ℚ)) :=
  (PipelineUtil.dropDupFirst (rows.map BedRow.sample)).map
    (fun s => (s, (sample_ancestries rows s).map (fun a => (a, ancestry_proportion rows s a))))

theorem ancestry_weight_fiber (rows : List BedRow) (s a : String) :
    ancestry_weight rows s a =
      (((rows.filter (fun r => r.sample == s)).filter (fun r => r.ancestry == a)).map
        weight).sum := by
  have hpred : (fun (r : BedRow) => r.sample == s && r.ancestry == a) =
      (fun (r : BedRow) => r.ancestry == a && r.sample == s) := by
    funext r
    exact Bool.and_comm _ _
  rw [ancestry_weight, List.filter_filter, hpred]

/-- C4: for a sample with nonzero total segment length, the proportions table
has exactly one row for the sample; its entry for each of the sample's
ancestries is the summed segment length of that ancestry divided by the
sample's total segment length; and the non-missing entries of the row sum
to 1. -/
theorem proportions_row_spec (rows : List BedRow) (s : String)
    (hs : s ∈ rows.map BedRow.sample) (hnz : sample_total rows s ≠ 0) :
    ((compute_ancestry_proportions rows).filter (fun p => p.1 == s)).length = 1 ∧
    (compute_ancestry_proportions rows).lookup s =
      some ((sample_ancestries rows s).map
        (fun a => (a, ancestry_weight rows s a / sample_total rows s))) ∧
    ((sample_ancestries rows s).map (fun a => ancestry_proportion rows s a)).sum = 1 := by
  have hmem : s ∈ PipelineUtil.dropDupFirst (rows.map BedRow.sample) :=
    (PipelineUtil.mem_dropDupFirst s (rows.map BedRow.sample)).mpr hs
  refine ⟨?_, ?_, ?_⟩
  · rw [compute_ancestry_proportions, PipelineUtil.filter_key_map_eq_single _ _
      (PipelineUtil.nodup_dropDupFirst _) s hmem]
    rfl
  · rw [compute_ancestry_proportions, PipelineUtil.lookup_key_map _ _ s hmem]
    rfl
  · have hfib := PipelineUtil.sum_fiber_dropDupFirst BedRow.ancestry weight
      (rows.filter (fun r => r.sample == s))
    have hdiv := PipelineUtil.sum_map_div (sample_total rows s)
      (fun a => ancestry_weight rows s a) (sample_ancestries rows s)
    have hcongr : (sample_ancestries rows s).map (fun a => ancestry_proportion rows s a) =
        (sample_ancestries rows s).map
          (fun a => ancestry_weight rows s a / sample_total rows s) := rfl
    rw [hcongr, hdiv]
    have hsum : ((sample_ancestries rows s).map (fun a => ancestry_weight rows s a)).sum =
        sample_total rows s := by
      have hcongr2 : (sample_ancestries rows s).map (fun a => ancestry_weight rows s a) =
          (sample_ancestries rows s).map
            (fun a => (((rows.filter (fun r => r.sample == s)).filter
              (fun r => r.ancestry == a)).map weight).sum) := by
        apply List.map_congr_left
        intro a _
        exact ancestry_weight_fiber rows s a
      rw [hcongr2]
      exact hfib
    rw [hsum, div_self hnz]

theorem proportions_row_spec_witness :
    ((compute_ancestry_proportions [⟨"s", "A", 0, 1⟩, ⟨"s", "B", 0, 3⟩]).filter
      (fun p => p.1 == "s")).length = 1 ∧
    (compute_ancestry_proportions [⟨"s", "A", 0, 1⟩, ⟨"s", "B", 0, 3⟩]).lookup "s" =
      some ((sample_ancestries [⟨"s", "A", 0, 1⟩, ⟨"s", "B", 0, 3⟩] "s").map
        (fun a => (a, ancestry_weight [⟨"s", "A", 0, 1⟩, ⟨"s", "B", 0, 3⟩] "s" a /
          sample_total [⟨"s", "A", 0, 1⟩, ⟨"s", "B", 0, 3⟩] "s"))) ∧
    ((sample_ancestries [⟨"s", "A", 0, 1⟩, ⟨"s", "B", 0, 3⟩] "s").map
      (fun a => ancestry_proportion [⟨"s", "A", 0, 1⟩, ⟨"s", "B", 0, 3⟩] "s" a)).sum = 1 :=
  proportions_row_spec [⟨"s", "A", 0, 1⟩, ⟨"s", "B", 0, 3⟩] "s" (by decide)
    (by norm_num [sample_total, weight])

end GlobalAncestry

namespace PipelineUtil

/-- One insertion into a Python dict of lists (initialize-if-absent and
append): key insertion order is preserved, a new key goes to the back. -/
def updAssoc {α : Type} : List (String × List α) → String → α → List (String × List α)
  | [], k, v => [(k, [v])]
  | (k0, vs) :: rest, k, v =>
    if k0 = k then (k0, vs ++ [v]) :: rest else (k0, vs) :: updAssoc rest k v

/-- The dict built by looping over items and appending each value under its
key, as the collection loops of the scripts do. -/
def buildDict {α β : Type} (key : β → String) (val : β → α) (items : List β) :
    List (String × List α) :=
  items.foldl (fun m b => updAssoc m (key b) (val b)) []

/-- Combine an existing optional entry with newly appended values. -/
def comb? {α : Type} (o : Option (List α)) (l : List α) : Option (List α) :=
  match o, l with
  | none, [] => none
  | o', l' => some (o'.getD [] ++ l')

theorem comb?_nil {α : Type} (o : Option (List α)) : comb? o [] = o := by
  cases o <;> simp [comb?]

theorem comb?_some {α : Type} (l r : List α) : comb? (some l) r = some (l ++ r) := by
  cases r <;> simp [comb?]

theorem comb?_cons {α : Type} (o : Option (List α)) (v : α) (r : List α) :
    comb? o (v :: r) = some (o.getD [] ++ v :: r) := by
  cases o <;> rfl

theorem lookup_updAssoc {α : Type} :
    ∀ (m : List (String × List α)) (k : String) (v : α) (k' : String),
      (updAssoc m k v).lookup k' =
        if k' = k then some (((m.lookup k).getD []) ++ [v]) else m.lookup k'
  | [], k, v, k' => by
    by_cases h : k' = k
    · subst h
      simp [updAssoc, List.lookup]
    · simp [updAssoc, List.lookup, beq_eq_false_iff_ne.mpr h, h]
  | (k0, vs) :: rest, k, v, k' => by
    by_cases h0 : k0 = k
    · subst h0
      rw [updAssoc, if_pos rfl]
      by_cases h : k' = k0
      · subst h
        simp [List.lookup]
      · simp [List.lookup, beq_eq_false_iff_ne.mpr h, h]
    · rw [updAssoc, if_neg h0]
      by_cases h : k' = k0
      · subst h
        have hne : k' ≠ k := h0
        simp [List.lookup, hne]
      · simp only [List.lookup, beq_eq_false_iff_ne.mpr h]
        rw [lookup_updAssoc rest k v k']
        have hk0k : (k == k0) = false := beq_eq_false_iff_ne.mpr (fun hh => h0 hh.symm)
        by_cases hkk : k' = k
        · simp [hkk, List.lookup, hk0k]
        · simp [hkk]

theorem keys_updAssoc {α : Type} :
    ∀ (m : List (String × List α)) (k : String) (v : α),
      (updAssoc m k v).map Prod.fst =
        if k ∈ m.map Prod.fst then m.map Prod.fst else m.map Prod.fst ++ [k]
  | [], k, v => by simp [updAssoc]
  | (k0, vs) :: rest, k, v => by
    by_cases h0 : k0 = k
    · subst h0
      simp [updAssoc]
    · rw [updAssoc, if_neg h0]
      have hne : ¬k = k0 := fun hh => h0 hh.symm
      simp only [List.map_cons, keys_updAssoc rest k v, List.mem_cons, hne, false_or]
      by_cases h : k ∈ rest.map Prod.fst
      · simp [h]
      · simp [h]

theorem nodup_keys_updAssoc {α : Type} (m : List (String × List α)) (k : String) (v : α)
    (h : (m.map Prod.fst).Nodup) : ((updAssoc m k v).map Prod.fst).Nodup := by
  rw [keys_updAssoc]
  by_cases hk : k ∈ m.map Prod.fst
  · simp [hk, h]
  · rw [if_neg hk, List.nodup_append]
    refine ⟨h, List.nodup_singleton k, ?_⟩
    intro a ha hak
    rw [List.mem_singleton] at hak
    exact hk (hak ▸ ha)

theorem lookup_foldl_updAssoc {α β : Type} (key : β → String) (val : β → α) :
    ∀ (items : List β) (m : List (String × List α)) (k : String),
      ((items.foldl (fun m b => updAssoc m (key b) (val b)) m).lookup k) =
        comb? (m.lookup k) ((items.filter (fun b => key b == k)).map val)
  | [], m, k => by simp [comb?_nil]
  | b :: items, m, k => by
    rw [List.foldl_cons, lookup_foldl_updAssoc key val items (updAssoc m (key b) (val b)) k,
      lookup_updAssoc, List.filter_cons]
    by_cases h : key b == k
    · have hk : k = key b := (beq_iff_eq.mp h).symm
      rw [if_pos hk, if_pos h, List.map_cons, comb?_cons, comb?_some]
      subst hk
      simp
    · have hk : ¬k = key b := fun hh => h (beq_iff_eq.mpr hh.symm)
      rw [if_neg hk, if_neg (by simpa using h)]

theorem lookup_buildDict {α β : Type} (key : β → String) (val : β → α) (items : List β)
    (k : String) :
    (buildDict key val items).lookup k =
      comb? none ((items.filter (fun b => key b == k)).map val) := by
  rw [buildDict, lookup_foldl_updAssoc]
  rfl

theorem nodup_keys_foldl {α β : Type} (key : β → String) (val : β → α) :
    ∀ (items : List β) (m : List (String × List α)), (m.map Prod.fst).Nodup →
      (((items.foldl (fun m b => updAssoc m (key b) (val b)) m)).map Prod.fst).Nodup
  | [], _, h => h
  | b :: items, m, h =>
    nodup_keys_foldl key val items _ (nodup_keys_updAssoc m (key b) (val b) h)

theorem nodup_keys_buildDict {α β : Type} (key : β → String) (val : β → α)
    (items : List β) : ((buildDict key val items).map Prod.fst).Nodup :=
  nodup_keys_foldl key val items [] List.nodup_nil

theorem keys_foldl_sub {α β : Type} (key : β → String) (val : β → α) :
    ∀ (items : List β) (m : List (String × List α)) (k : String),
      k ∈ ((items.foldl (fun m b => updAssoc m (key b) (val b)) m).map Prod.fst) →
      k ∈ m.map Prod.fst ∨ ∃ b ∈ items, key b = k
  | [], _, k, h => Or.inl h
  | b :: items, m, k, h => by
    rcases keys_foldl_sub key val items (updAssoc m (key b) (val b)) k h with h' | h'
    · rw [keys_updAssoc] at h'
      by_cases hmem : key b ∈ m.map Prod.fst
      · rw [if_pos hmem] at h'
        exact Or.inl h'
      · rw [if_neg hmem] at h'
        rcases List.mem_append.mp h' with h'' | h''
        · exact Or.inl h''
        · simp only [List.mem_singleton] at h''
          exact Or.inr ⟨b, List.mem_cons_self b items, h''.symm⟩
    · rcases h' with ⟨b', hb', hk⟩
      exact Or.inr ⟨b', List.mem_cons_of_mem b hb', hk⟩

theorem keys_buildDict_sub {α β : Type} (key : β → String) (val : β → α) (items : List β)
    (k : String) (h : k ∈ (buildDict key val items).map Prod.fst) : ∃ b ∈ items, key b = k := by
  rcases keys_foldl_sub key val items [] k h with h' | h'
  · simp at h'
  · exact h'

end PipelineUtil


namespace PipelineUtil

/-- Python str.endswith, on the character lists of the strings (the library
String.endsWith is not used because its byte-position loop does not reduce
in proofs; this is the same predicate). -/
def endsWithStr (s suff : String) : Bool := suff.data.isSuffixOf s.data

/-- Python str.startswith, on the character lists of the strings. -/
def startsWithStr (s pre : String) : Bool := pre.data.isPrefixOf s.data

/-- Python str.split(c) on the character list of a string: the chunks
between occurrences of c, with empty chunks kept (the library String.splitOn
is not used because its byte-position loop does not reduce in proofs; this
is the same function for a one-character separator). -/
def splitOnChar (c : Char) : List Char → List (List Char)
  | [] => [[]]
  | x :: xs =>
    if x = c then [] :: splitOnChar c xs
    else
      match splitOnChar c xs with
      | [] => [[x]]
      | y :: ys => (x :: y) :: ys

end PipelineUtil

namespace CollectBeds

/-! Embedding of local-ancestry/scripts/collect_beds.py. -/

/-- A file of an input directory: its name and its data rows (pd.concat with
ignore_index stacks the rows in file order). -/
structure BedFile where
  name : String
  rows : List String
deriving DecidableEq, Inhabited

/-- ID_HAP: the part of the file name before the first dot,
filename.split(".")[0]. -/
def id_hap (filename : String) : String :=
  String.mk ((PipelineUtil.splitOnChar '.' filename.data).headD [])

/-- The whole script: walk the directories in order, collect the .bed files
under their ID_HAP in an insertion-ordered dict, then write one output file
ID_HAP.bed per key, holding the concatenation of the collected rows. -/
def collect_beds (dirs : List (List BedFile)) : List (String × List String) :=
  let files := (dirs.map (fun d => d.filter
    (fun f => PipelineUtil.endsWithStr f.name ".bed"))).flatten
  (PipelineUtil.buildDict (fun f => id_hap f.name) BedFile.rows files).map
    (fun p => (p.1 ++ ".bed", p.2.flatten))

theorem filter_flatten {α : Type} (p : α → Bool) :
    ∀ (L : List (List α)), (L.map (fun d => d.filter p)).flatten = L.flatten.filter p
  | [] => rfl
  | d :: L => by
    simp only [List.map_cons, List.flatten_cons, List.filter_append, filter_flatten p L]

theorem append_right_cancel_str (a b s : String) (h : a ++ s = b ++ s) : a = b := by
  have hd : a.data ++ s.data = b.data ++ s.data := by
    rw [← String.data_append, ← String.data_append, h]
  have hdata : a.data = b.data := List.append_cancel_right hd
  cases a
  cases b
  exact congrArg String.mk hdata

theorem lookup_map_suffix {A B : Type} (f : A → B) (s k : String) :
    ∀ (m : List (String × A)),
      ((m.map (fun p => (p.1 ++ s, f p.2))).lookup (k ++ s)) = (m.lookup k).map f
  | [] => rfl
  | (k0, v) :: rest => by
    by_cases h : k = k0
    · subst h
      simp [List.lookup]
    · have h1 : (k ++ s == k0 ++ s) = false := beq_eq_false_iff_ne.mpr
        (fun hh => h (append_right_cancel_str _ _ _ hh))
      have h2 : (k == k0) = false := beq_eq_false_iff_ne.mpr h
      simp only [List.map_cons, List.lookup, h1, h2]
      exact lookup_map_suffix f s k rest

theorem filter_map_key_single {A B : Type} (f : A → B) (s : String) :
    ∀ (m : List (String × A)), (m.map Prod.fst).Nodup → ∀ k v, m.lookup k = some v →
      (m.map (fun p => (p.1 ++ s, f p.2))).filter (fun o => o.1 == k ++ s) = [(k ++ s, f v)]
  | [], _, k, v, hl => by simp [List.lookup] at hl
  | (k0, v0) :: rest, hnd, k, v, hl => by
    simp only [List.map_cons] at hnd
    by_cases h : k = k0
    · subst h
      simp only [List.lookup, beq_self_eq_true] at hl
      have hv : v0 = v := by
        simpa using hl
      subst hv
      simp only [List.map_cons, List.filter_cons, beq_self_eq_true, if_pos]
      have hnil : (rest.map (fun p => (p.1 ++ s, f p.2))).filter
          (fun o => o.1 == k ++ s) = [] := by
        apply List.filter_eq_nil.mpr
        intro o ho
        rcases List.mem_map.mp ho with ⟨p, hp, he⟩
        subst he
        simp only [beq_iff_eq]
        intro hps
        have hpk : p.1 = k := append_right_cancel_str _ _ _ hps
        have hmem : p.1 ∈ rest.map Prod.fst := List.mem_map_of_mem Prod.fst hp
        rw [hpk] at hmem
        exact (List.nodup_cons.mp hnd).1 hmem
      rw [hnil]
    · have h1 : (k0 ++ s == k ++ s) = false := beq_eq_false_iff_ne.mpr
        (fun hh => h (append_right_cancel_str _ _ _ hh).symm)
      have h2 : (k == k0) = false := beq_eq_false_iff_ne.mpr h
      simp only [List.lookup, h2] at hl
      simp only [List.map_cons, List.filter_cons, h1]
      exact filter_map_key_single f s rest (List.nodup_cons.mp hnd).2 k v hl

/-- C6: for every ID_HAP occurring among the .bed files of the input
directories, the script writes exactly one output file named ID_HAP.bed,
whose data rows are the concatenation of the rows of all .bed input files
sharing that ID_HAP, in traversal order; and every output file is named
after some occurring ID_HAP. -/
theorem collect_beds_spec (dirs : List (List BedFile)) (k : String)
    (hk : ∃ f ∈ dirs.flatten, PipelineUtil.endsWithStr f.name ".bed" ∧ id_hap f.name = k) :
    ((collect_beds dirs).filter (fun o => o.1 == k ++ ".bed")).length = 1 ∧
    (collect_beds dirs).lookup (k ++ ".bed") =
      some (((dirs.flatten.filter
        (fun f => PipelineUtil.endsWithStr f.name ".bed" && (id_hap f.name == k))).map
          BedFile.rows).flatten) ∧
    (∀ o ∈ collect_beds dirs, ∃ f ∈ dirs.flatten, PipelineUtil.endsWithStr f.name ".bed" ∧
      o.1 = id_hap f.name ++ ".bed") := by
  obtain ⟨f0, hf0mem, hf0bed, hf0id⟩ := hk
  have hfiles : (dirs.map (fun d => d.filter
      (fun f => PipelineUtil.endsWithStr f.name ".bed"))).flatten =
      dirs.flatten.filter (fun f => PipelineUtil.endsWithStr f.name ".bed") :=
    filter_flatten _ dirs
  have hsplit : (dirs.flatten.filter
      (fun f => PipelineUtil.endsWithStr f.name ".bed")).filter
      (fun f => id_hap f.name == k) =
      dirs.flatten.filter
        (fun f => PipelineUtil.endsWithStr f.name ".bed" && (id_hap f.name == k)) := by
    rw [List.filter_filter]
    congr 1
    funext r
    exact Bool.and_comm _ _
  have hf0files : f0 ∈ (dirs.flatten.filter
      (fun f => PipelineUtil.endsWithStr f.name ".bed")).filter
      (fun f => id_hap f.name == k) := by
    rw [List.mem_filter, List.mem_filter]
    exact ⟨⟨hf0mem, hf0bed⟩, by simp [hf0id]⟩
  have hmatched : ∃ r rest, ((dirs.flatten.filter
      (fun f => PipelineUtil.endsWithStr f.name ".bed")).filter
        (fun f => id_hap f.name == k)).map BedFile.rows = r :: rest := by
    rcases hm : ((dirs.flatten.filter
        (fun f => PipelineUtil.endsWithStr f.name ".bed")).filter
        (fun f => id_hap f.name == k)).map BedFile.rows with _ | ⟨r, rest⟩
    · rw [List.map_eq_nil] at hm
      rw [hm] at hf0files
      exact absurd hf0files (List.not_mem_nil f0)
    · exact ⟨r, rest, hm⟩
  obtain ⟨r, rest, hm⟩ := hmatched
  have hlook : (PipelineUtil.buildDict (fun f => id_hap f.name) BedFile.rows
      ((dirs.map (fun d => d.filter
        (fun f => PipelineUtil.endsWithStr f.name ".bed"))).flatten)).lookup k =
      some (((dirs.flatten.filter
        (fun f => PipelineUtil.endsWithStr f.name ".bed" && (id_hap f.name == k))).map
          BedFile.rows)) := by
    rw [PipelineUtil.lookup_buildDict, hfiles, hm, PipelineUtil.comb?_cons, ← hm, hsplit]
    simp
  refine ⟨?_, ?_, ?_⟩
  · rw [collect_beds, filter_map_key_single (fun ls : List (List String) => ls.flatten)
      ".bed" _ (PipelineUtil.nodup_keys_buildDict _ _ _) k _ hlook]
    rfl
  · rw [collect_beds, lookup_map_suffix (fun ls : List (List String) => ls.flatten)
      ".bed" k, hlook]
    rfl
  · intro o ho
    rw [collect_beds] at ho
    rcases List.mem_map.mp ho with ⟨p, hp, he⟩
    subst he
    have hkey : p.1 ∈ (PipelineUtil.buildDict (fun f => id_hap f.name) BedFile.rows
        ((dirs.map (fun d => d.filter
          (fun f => PipelineUtil.endsWithStr f.name ".bed"))).flatten)).map
          Prod.fst := List.mem_map_of_mem Prod.fst hp
    rcases PipelineUtil.keys_buildDict_sub _ _ _ _ hkey with ⟨b, hb, hbk⟩
    rw [hfiles, List.mem_filter] at hb
    exact ⟨b, hb.1, hb.2, by rw [hbk]⟩

/-- The concrete input directories of the C6 witness. -/
def wdirs : List (List BedFile) :=
  [[⟨"a.x.bed", ["r1"]⟩, ⟨"b.bed", ["r2"]⟩], [⟨"a.y.bed", ["r3"]⟩]]

theorem collect_beds_spec_witness :
    ((collect_beds wdirs).filter (fun o => o.1 == "a" ++ ".bed")).length = 1 ∧
    (collect_beds wdirs).lookup ("a" ++ ".bed") =
      some (((wdirs.flatten.filter
        (fun f => PipelineUtil.endsWithStr f.name ".bed" && (id_hap f.name == "a"))).map
          BedFile.rows).flatten) ∧
    (∀ o ∈ collect_beds wdirs, ∃ f ∈ wdirs.flatten,
      PipelineUtil.endsWithStr f.name ".bed" ∧ o.1 = id_hap f.name ++ ".bed") :=
  collect_beds_spec wdirs "a" ⟨⟨"a.x.bed", ["r1"]⟩, by decide, by decide, by decide⟩

end CollectBeds

namespace PipelineUtil

theorem lookup_eq_none_of_not_mem {A : Type} :
    ∀ (m : List (String × A)) (k : String), k ∉ m.map Prod.fst → m.lookup k = none
  | [], _, _ => rfl
  | (k0, v) :: rest, k, h => by
    simp only [List.map_cons, List.mem_cons, not_or] at h
    simp only [List.lookup, beq_eq_false_iff_ne.mpr h.1]
    exact lookup_eq_none_of_not_mem rest k h.2

theorem lookup_filter_map_assoc {A B : Type} (pr : List A → Bool) (g : List A → B) :
    ∀ (m : List (String × List A)), (m.map Prod.fst).Nodup → ∀ k,
      ((m.filter (fun p => pr p.2)).map (fun p => (p.1, g p.2))).lookup k =
        (m.lookup k).bind (fun v => if pr v then some (g v) else none)
  | [], _, k => by simp [List.lookup]
  | (k0, v0) :: rest, hnd, k => by
    simp only [List.map_cons] at hnd
    have ih := lookup_filter_map_assoc pr g rest (List.nodup_cons.mp hnd).2
    by_cases hk : k = k0
    · subst hk
      by_cases hp : pr v0
      · simp [List.filter_cons, hp, List.lookup]
      · have hnone : rest.lookup k = none :=
          lookup_eq_none_of_not_mem rest k (List.nodup_cons.mp hnd).1
        simp [List.filter_cons, hp, ih, hnone, List.lookup]
    · have hbeq : (k == k0) = false := beq_eq_false_iff_ne.mpr hk
      by_cases hp : pr v0
      · simp [List.filter_cons, hp, List.lookup, hbeq, ih]
      · simp [List.filter_cons, hp, List.lookup, hbeq, ih]

/-- Python str.replace with a nonempty pattern, on character lists:
left-to-right, non-overlapping.  Driven by a fuel counter initialised to the
input length (each step consumes at least one character) so that the
function evaluates by plain kernel reduction. -/
def replaceAllFuel (old new : List Char) : Nat → List Char → List Char
  | _, [] => []
  | 0, l => l
  | fuel + 1, x :: xs =>
    if old.isPrefixOf (x :: xs) && !old.isEmpty then
      new ++ replaceAllFuel old new fuel ((x :: xs).drop old.length)
    else x :: replaceAllFuel old new fuel xs

def replaceAll (old new l : List Char) : List Char := replaceAllFuel old new l.length l

end PipelineUtil

namespace GlobalAncestry

/-- The sample name of a BED file: the file name with the "_0.bed" and
"_1.bed" occurrences removed, name.replace("_0.bed", "").replace("_1.bed",
""). -/
def sample_of (name : String) : String :=
  String.mk (PipelineUtil.replaceAll "_1.bed".data []
    (PipelineUtil.replaceAll "_0.bed".data [] name.data))

/-- list_bed_files: group the .bed files of the directory by sample name in
encounter order, keep only the samples with exactly two files, and pair each
sample with its two file names in sorted order. -/
def list_bed_files (files : List String) : List (String × List String) :=
  let beds := files.filter (fun f => PipelineUtil.endsWithStr f ".bed")
  ((PipelineUtil.buildDict sample_of (fun f => f) beds).filter
    (fun p => p.2.length == 2)).map
    (fun p => (p.1, p.2.mergeSort (fun a b => decide (a ≤ b))))

/-- C9: a sample name appears in the list_bed_files result exactly when the
directory holds exactly two .bed files with that sample name; such samples
are silently kept with their two file names in sorted order, every retained
entry has exactly two sorted file names, and samples with any other file
count are silently dropped (no error value exists: the function is total). -/
theorem list_bed_files_spec (files : List String) (s : String) :
    (((list_bed_files files).lookup s).isSome ↔
      ((files.filter (fun f => PipelineUtil.endsWithStr f ".bed")).filter
        (fun f => sample_of f == s)).length = 2) ∧
    (((files.filter (fun f => PipelineUtil.endsWithStr f ".bed")).filter
        (fun f => sample_of f == s)).length = 2 →
      (list_bed_files files).lookup s =
        some (((files.filter (fun f => PipelineUtil.endsWithStr f ".bed")).filter
          (fun f => sample_of f == s)).mergeSort (fun a b => decide (a ≤ b)))) ∧
    (∀ p ∈ list_bed_files files, p.2.length = 2 ∧ p.2.Pairwise (fun a b => a ≤ b)) := by
  have hlookup : ∀ k, (list_bed_files files).lookup k =
      ((PipelineUtil.buildDict sample_of (fun f => f)
        (files.filter (fun f => PipelineUtil.endsWithStr f ".bed"))).lookup k).bind
        (fun v => if v.length == 2 then
          some (v.mergeSort (fun a b => decide (a ≤ b))) else none) := by
    intro k
    rw [list_bed_files]
    exact PipelineUtil.lookup_filter_map_assoc (fun v => v.length == 2)
      (fun v => v.mergeSort (fun a b => decide (a ≤ b))) _
      (PipelineUtil.nodup_keys_buildDict _ _ _) k
  have hbd : (PipelineUtil.buildDict sample_of (fun f => f)
      (files.filter (fun f => PipelineUtil.endsWithStr f ".bed"))).lookup s =
      PipelineUtil.comb? none (((files.filter
        (fun f => PipelineUtil.endsWithStr f ".bed")).filter
          (fun f => sample_of f == s)).map (fun f => f)) :=
    PipelineUtil.lookup_buildDict _ _ _ _
  rw [List.map_id'] at hbd
  refine ⟨?_, ?_, ?_⟩
  · rw [hlookup s, hbd]
    rcases hmatch : (files.filter (fun f => PipelineUtil.endsWithStr f ".bed")).filter
        (fun f => sample_of f == s) with _ | ⟨b, bs⟩
    · simp [PipelineUtil.comb?]
    · rw [PipelineUtil.comb?_cons]
      by_cases hlen : (b :: bs).length = 2
      · simp [hlen]
      · simp only [Option.getD_none, List.nil_append, Option.some_bind]
        rw [if_neg (by simpa using hlen)]
        simp only [Option.isSome_none, Bool.false_eq_true, false_iff]
        exact hlen
  · intro hcount
    rw [hlookup s, hbd]
    rcases hmatch : (files.filter (fun f => PipelineUtil.endsWithStr f ".bed")).filter
        (fun f => sample_of f == s) with _ | ⟨b, bs⟩
    · rw [hmatch] at hcount
      simp at hcount
    · rw [hmatch] at hcount
      rw [PipelineUtil.comb?_cons]
      simp only [Option.getD_none, List.nil_append, Option.some_bind]
      rw [if_pos (by simpa using hcount)]
  · intro p hp
    rw [list_bed_files] at hp
    rcases List.mem_map.mp hp with ⟨q, hq, he⟩
    subst he
    have hqlen : q.2.length = 2 := by
      have := (List.mem_filter.mp hq).2
      simpa using this
    constructor
    · rw [List.length_mergeSort, hqlen]
    · have htrans : ∀ a b c : String, decide (a ≤ b) = true → decide (b ≤ c) = true →
          decide (a ≤ c) = true := by
        intro a b c h1 h2
        simp only [decide_eq_true_eq] at h1 h2 ⊢
        exact le_trans h1 h2
      have htotal : ∀ a b : String, (decide (a ≤ b) || decide (b ≤ a)) = true := by
        intro a b
        simp only [Bool.or_eq_true, decide_eq_true_eq]
        exact le_total a b
      exact (List.sorted_mergeSort htrans htotal q.2).imp (fun h => of_decide_eq_true h)

theorem list_bed_files_spec_witness :
    (list_bed_files ["s1_0.bed", "s1_1.bed", "x_0.bed"]).lookup "s1" =
      some (((["s1_0.bed", "s1_1.bed", "x_0.bed"].filter
        (fun f => PipelineUtil.endsWithStr f ".bed")).filter
          (fun f => sample_of f == "s1")).mergeSort (fun a b => decide (a ≤ b))) :=
  (list_bed_files_spec ["s1_0.bed", "s1_1.bed", "x_0.bed"] "s1").2.1 (by decide)

end GlobalAncestry

namespace Ind2pop

/-! Embedding of admixture-visualization/ind2pop.py. -/

/-- A row of the popinfo table: the sample id column and the chosen
covariate column. -/
structure PopRow where
  id : String
  cov : String
deriving DecidableEq, Inhabited

/-- The space-to-underscore rewrite applied to each covariate value
(str.replace replaces every occurrence). -/
def underscore (s : String) : String :=
  String.mk (PipelineUtil.replaceAll " ".data "_".data s.data)

/-- The lines written to ind2pop.txt.  After the assertion that every
ordered sample occurs in popinfo, pandas set_index(id).loc[sample_order]
yields, for each entry of the order file, every popinfo row carrying that
sample id, in table order; each row contributes its covariate with spaces
replaced by underscores.  A missing sample fails the assertion (error)
before any output is written. -/
def ind2pop_lines (popinfo : List PopRow) (order : List String) :
    Except String (List String) :=
  if order.all (fun s => popinfo.any (fun r => r.id == s)) then
    .ok (order.flatMap (fun s => (popinfo.filter (fun r => r.id == s)).map
      (fun r => underscore r.cov)))
  else .error "Some samples in sample_order are missing in popinfo"

/-- C7 counterexample: a popinfo table with two rows for the same sample id
satisfies the claim's precondition (the ordered sample appears in popinfo),
yet the written file has two lines for the one-sample order file, not one
line per sample. -/
theorem duplicate_sample_counterexample :
    (["a"].all (fun s => [(⟨"a", "x"⟩ : PopRow), ⟨"a", "y"⟩].any
      (fun r => r.id == s))) = true ∧
    ind2pop_lines [⟨"a", "x"⟩, ⟨"a", "y"⟩] ["a"] = .ok ["x", "y"] ∧
    (["x", "y"] : List String).length ≠ (["a"] : List String).length :=
  ⟨by decide, by rfl, by decide⟩

theorem headD_map {A B : Type} (g : A → B) (l : List A) (d : A) :
    (l.map g).headD (g d) = g (l.headD d) := by
  cases l <;> rfl

theorem flatMap_singleton {A B : Type} (f : A → List B) (d : B) :
    ∀ l : List A, (∀ a ∈ l, (f a).length = 1) →
      l.flatMap f = l.map (fun a => (f a).headD d)
  | [], _ => rfl
  | a :: l, h => by
    have h1 := h a (List.mem_cons_self a l)
    have ih := flatMap_singleton f d l (fun a ha => h a (List.mem_cons_of_mem _ ha))
    rcases hf : f a with _ | ⟨x, _ | ⟨y, t⟩⟩
    · rw [hf] at h1
      simp at h1
    · simp [List.flatMap_cons, hf, ih]
    · rw [hf] at h1
      simp at h1

/-- C7 (amended): when every sample of the order file matches exactly one
popinfo row, ind2pop.txt gets exactly one line per entry of the order file,
in order, each line being that sample's covariate with every space replaced
by an underscore; when some ordered sample is absent from popinfo, the
script fails on the assertion and no lines are produced. -/
theorem ind2pop_spec (popinfo : List PopRow) (order : List String) :
    ((∀ s ∈ order, (popinfo.filter (fun r => r.id == s)).length = 1) →
      ind2pop_lines popinfo order = .ok (order.map (fun s =>
        underscore (((popinfo.filter (fun r => r.id == s)).headD default).cov)))) ∧
    ((∃ s ∈ order, ∀ r ∈ popinfo, r.id ≠ s) →
      ∃ e, ind2pop_lines popinfo order = .error e) := by
  constructor
  · intro h
    have hall : order.all (fun s => popinfo.any (fun r => r.id == s)) = true := by
      rw [List.all_eq_true]
      intro s hs
      have h1 := h s hs
      rcases hf : popinfo.filter (fun r => r.id == s) with _ | ⟨r, t⟩
      · rw [hf] at h1
        simp at h1
      · have hr : r ∈ popinfo.filter (fun r => r.id == s) := by
          rw [hf]
          exact List.mem_cons_self r t
        rw [List.any_eq_true]
        exact ⟨r, (List.mem_filter.mp hr).1, (List.mem_filter.mp hr).2⟩
    rw [ind2pop_lines, if_pos hall]
    have hlen : ∀ s ∈ order,
        ((popinfo.filter (fun r => r.id == s)).map (fun r => underscore r.cov)).length = 1 := by
      intro s hs
      rw [List.length_map]
      exact h s hs
    rw [flatMap_singleton _ (underscore (PopRow.cov default)) order hlen]
    congr 1
    apply List.map_congr_left
    intro s _
    exact headD_map (fun r : PopRow => underscore r.cov) _ default
  · rintro ⟨s, hs, habs⟩
    have hfalse : order.all (fun s => popinfo.any (fun r => r.id == s)) = false := by
      rw [List.all_eq_false]
      refine ⟨s, hs, ?_⟩
      intro hany
      rcases List.any_eq_true.mp hany with ⟨r, hr, hid⟩
      exact habs r hr (by simpa using hid)
    rw [ind2pop_lines, hfalse]
    exact ⟨_, rfl⟩

theorem ind2pop_spec_witness :
    ind2pop_lines [⟨"a", "p q"⟩, ⟨"b", "z"⟩] ["b", "a"] =
      .ok (["b", "a"].map (fun s =>
        underscore ((([(⟨"a", "p q"⟩ : PopRow), ⟨"b", "z"⟩].filter
          (fun r => r.id == s)).headD default).cov))) :=
  (ind2pop_spec [⟨"a", "p q"⟩, ⟨"b", "z"⟩] ["b", "a"]).1 (by decide)

end Ind2pop


namespace PongFilemap

/-! Embedding of admixture-visualization/make-pong-file-map.py. -/

/-- A row of the pong filemap: run id, K value and file path. -/
structure QRow where
  runID : String
  kvalue : Int
  filepath : String
deriving DecidableEq, Inhabited

/-- The numeric value of a digit string. -/
def digitsVal (l : List Char) : Nat := l.foldl (fun n c => 10 * n + (c.toNat - 48)) 0

/-- Python int(s): optional surrounding whitespace, an optional sign, then
at least one digit; anything else raises ValueError (none here).
Digit-grouping underscores are not modelled. -/
def pyInt? (s : String) : Option Int :=
  let t := ((s.data.dropWhile Char.isWhitespace).reverse.dropWhile Char.isWhitespace).reverse
  match t with
  | [] => none
  | c :: cs =>
    if c = '-' then
      match cs with
      | [] => none
      | _ :: _ => if cs.all Char.isDigit then some (-(digitsVal cs : Int)) else none
    else if c = '+' then
      match cs with
      | [] => none
      | _ :: _ => if cs.all Char.isDigit then some ((digitsVal cs : Int)) else none
    else if (c :: cs).all Char.isDigit then some ((digitsVal (c :: cs) : Int)) else none

/-- int(name.split(".")[1]): the second dot-separated field of a file name,
parsed as the K value; none when the field is missing (IndexError) or not an
integer (ValueError). -/
def kField? (name : String) : Option Int :=
  match (PipelineUtil.splitOnChar '.' name.data).get? 1 with
  | none => none
  | some f => pyInt? (String.mk f)

/-- pathlib stem: the name up to its last dot, when that dot is neither
leading nor trailing; the whole name otherwise. -/
def stem (n : String) : String :=
  let l := n.data
  let suf := (l.reverse.takeWhile (fun c => ¬(c = '.'))).length
  if suf = l.length then n
  else
    let i := l.length - suf - 1
    if 0 < i ∧ i < l.length - 1 then String.mk (l.take i) else n

/-- One filemap row: runID is the stem with dots replaced by x, then a dash
and the K value. -/
def mkRow (n : String) (k : Int) : QRow :=
  ⟨String.mk (PipelineUtil.replaceAll ".".data "x".data (stem n).data) ++ "-" ++ toString k,
    k, n⟩

/-- The Q files matching the glob *Q restricted to the name prefix. -/
def qMatches (files : List String) (pfx : String) : List String :=
  (files.filter (fun n => PipelineUtil.endsWithStr n "Q")).filter
    (fun n => PipelineUtil.startsWithStr n pfx)

/-- The K values of all matching files; none as soon as one fails, as the
list comprehension raises. -/
def allK : List String → Option (List Int)
  | [] => some []
  | n :: ns =>
    match kField? n, allK ns with
    | some k, some ks => some (k :: ks)
    | _, _ => none

/-- make_pong_filemap: ValueError when the path is not a directory, when no
Q file matches, or when a K value does not parse; otherwise the filemap rows
sorted by K value. -/
def make_pong_filemap (d : Option (List String)) (pfx : String) : Except String (List QRow) :=
  match d with
  | none => .error "The path is not a valid directory."
  | some files =>
    let qs := qMatches files pfx
    if qs.isEmpty then .error "No Q files found with the prefix."
    else
      match allK qs with
      | none => .error "Failed to parse K values from Q file names."
      | some ks =>
        .ok (((qs.zip ks).map (fun p => mkRow p.1 p.2)).mergeSort
          (fun a b => decide (a.kvalue ≤ b.kvalue)))

theorem allK_none_iff : ∀ ns : List String, allK ns = none ↔ ∃ n ∈ ns, kField? n = none
  | [] => by simp [allK]
  | n :: ns => by
    have ih := allK_none_iff ns
    rw [allK]
    rcases hk : kField? n with _ | k
    · simp [hk]
    · rcases ha : allK ns with _ | ks
      · simpa [hk] using ih.mp ha
      · simp only [hk, ha, List.mem_cons]
        constructor
        · intro h
          exact Option.noConfusion h
        · rintro ⟨x, hx | hx, hnone⟩
          · rw [hx] at hnone
            rw [hk] at hnone
            exact Option.noConfusion hnone
          · have hcontra : allK ns = none := ih.mpr ⟨x, hx, hnone⟩
            rw [ha] at hcontra
            exact Option.noConfusion hcontra

theorem allK_eq_map : ∀ (ns : List String) (ks : List Int), allK ns = some ks →
    ks = ns.map (fun n => (kField? n).getD 0)
  | [], ks, h => by
    simp [allK] at h
    simp [h.symm]
  | n :: ns, ks, h => by
    rw [allK] at h
    rcases hk : kField? n with _ | k <;> rw [hk] at h
    · simp at h
    · rcases ha : allK ns with _ | ks' <;> rw [ha] at h
      · simp at h
      · simp only [Option.some.injEq] at h
        rw [← h, List.map_cons, hk, allK_eq_map ns ks' ha]
        rfl

/-- C8: the function raises a ValueError exactly when the input path is not
a directory, no file name ends in Q and starts with the prefix, or the
second dot-separated field of some matching name does not parse as an
integer; otherwise it returns one row per matching file (a permutation of
the constructed rows) sorted by K value in ascending order. -/
theorem make_pong_filemap_spec (d : Option (List String)) (pfx : String) :
    ((∃ e, make_pong_filemap d pfx = .error e) ↔
      (d = none ∨ ∃ files, d = some files ∧
        (qMatches files pfx = [] ∨ ∃ n ∈ qMatches files pfx, kField? n = none))) ∧
    (∀ files rows, d = some files → make_pong_filemap d pfx = .ok rows →
      rows.length = (qMatches files pfx).length ∧
      rows.Perm (((qMatches files pfx).zip ((qMatches files pfx).map
        (fun n => (kField? n).getD 0))).map (fun p => mkRow p.1 p.2)) ∧
      rows.Pairwise (fun a b => a.kvalue ≤ b.kvalue)) := by
  constructor
  · constructor
    · rintro ⟨e, he⟩
      rcases d with _ | files
      · exact Or.inl rfl
      · refine Or.inr ⟨files, rfl, ?_⟩
        rw [make_pong_filemap] at he
        rcases hq : qMatches files pfx with _ | ⟨q, qs⟩
        · exact Or.inl rfl
        · rw [hq] at he
          simp only [List.isEmpty_cons, Bool.false_eq_true, if_false] at he
          rcases ha : allK (q :: qs) with _ | ks
          · exact Or.inr ((allK_none_iff (q :: qs)).mp ha)
          · rw [ha] at he
            simp at he
    · rintro (rfl | ⟨files, rfl, hcase⟩)
      · exact ⟨_, rfl⟩
      · rw [make_pong_filemap]
        rcases hq : qMatches files pfx with _ | ⟨q, qs⟩
        · exact ⟨_, rfl⟩
        · rcases hcase with hnil | hbad
          · rw [hq] at hnil
            exact absurd hnil (by simp)
          · have ha : allK (q :: qs) = none :=
              (allK_none_iff (q :: qs)).mpr (by rwa [← hq])
            simp only [List.isEmpty_cons, Bool.false_eq_true, if_false, ha]
            exact ⟨_, rfl⟩
  · rintro files rows rfl hok
    rw [make_pong_filemap] at hok
    rcases hq : qMatches files pfx with _ | ⟨q, qs⟩
    · rw [hq] at hok
      simp at hok
    · rw [hq] at hok
      simp only [List.isEmpty_cons, Bool.false_eq_true, if_false] at hok
      rcases ha : allK (q :: qs) with _ | ks
      · rw [ha] at hok
        simp at hok
      · rw [ha] at hok
        simp only [Except.ok.injEq] at hok
        subst hok
        have hks : ks = (q :: qs).map (fun n => (kField? n).getD 0) := allK_eq_map _ _ ha
        have hperm := List.mergeSort_perm (((q :: qs).zip ks).map (fun p => mkRow p.1 p.2))
          (fun a b => decide (a.kvalue ≤ b.kvalue))
        refine ⟨?_, ?_, ?_⟩
        · rw [List.length_mergeSort, List.length_map, List.length_zip, hks,
            List.length_map]
          simp
        · rw [← hks]
          exact hperm
        · have htrans : ∀ a b c : QRow, decide (a.kvalue ≤ b.kvalue) = true →
              decide (b.kvalue ≤ c.kvalue) = true → decide (a.kvalue ≤ c.kvalue) = true := by
            intro a b c h1 h2
            simp only [decide_eq_true_eq] at h1 h2 ⊢
            exact le_trans h1 h2
          have htotal : ∀ a b : QRow,
              (decide (a.kvalue ≤ b.kvalue) || decide (b.kvalue ≤ a.kvalue)) = true := by
            intro a b
            simp only [Bool.or_eq_true, decide_eq_true_eq]
            exact le_total a.kvalue b.kvalue
          exact (List.sorted_mergeSort htrans htotal _).imp (fun h => of_decide_eq_true h)

theorem make_pong_filemap_spec_witness :
    ∃ e, make_pong_filemap (some ["admix.xx.Q", "readme.txt"]) "admix" = .error e := by
  refine ((make_pong_filemap_spec (some ["admix.xx.Q", "readme.txt"]) "admix").1).mpr ?_
  exact Or.inr ⟨["admix.xx.Q", "readme.txt"], rfl, Or.inr ⟨"admix.xx.Q", by decide⟩⟩

end PongFilemap
